import Mathlib

/-!
Verification of the pipeline execution core
(`python_modules/dagster/dagster/core/execution.py`).

Each definition below is a shallow embedding of a function or class of
`execution.py`, translated from the source.  Python dicts are modelled as
association lists (insertion order preserved, lookup returns the binding
the dict would hold); raising is modelled with `Except` / `Option`;
generators that drive a scope are modelled by explicit traces of events.
Helpers of the repository that are not part of `execution.py` (for example
`dagster.utils.merge_dicts` and the config evaluator) are modelled from the
specification and are marked as such in their doc comments.
-/

namespace DagsterExec

/-- The error kinds of the error taxonomy.  `invariantViolation` embeds
`DagsterInvariantViolationError`; `checkFailed` embeds the errors raised by
`check.failed` / `check.invariant` (the spec groups both under the
InvariantViolation kind). -/
inductive DagsterError where
  | invariantViolation (msg : String)
  | checkFailed (msg : String)
  | executionStepNotFound (stepKey : String)
  | unmarshalInputNotFound (inputName : String) (stepKey : String)
  | marshalOutputNotFound (outputName : String) (stepKey : String)
  | unmarshalInputError (inputName : String) (stepKey : String)
  | marshalOutputError (outputName : String) (stepKey : String)
deriving DecidableEq

/-- Both `DagsterInvariantViolationError` and `check` errors are of the
InvariantViolation kind of the error taxonomy (spec section 7). -/
def DagsterError.isInvariantViolation : DagsterError → Bool
  | .invariantViolation _ => true
  | .checkFailed _ => true
  | _ => false

/-- Observable events of a run: the pipeline-level events plus markers for
the moments the claims reason about (the context scope opening, the step
engine being invoked, a step running inside a scope body). -/
inductive Event where
  | pipelineStart
  | pipelineSuccess
  | pipelineFailure
  | contextOpened
  | engineInvoked
  | stepEvent (key : String)
deriving DecidableEq

/-- `StepKind` from `execution_plan.objects`. -/
inductive StepKind where
  | inputExpectation
  | transform
  | outputExpectation
deriving DecidableEq

/-- First-match lookup in an association list; models reading
`d[k]` on a Python dict represented as its (ordered) item list whose
significant binding for a key is the first one. -/
def lookupKey {K V : Type} [DecidableEq K] (l : List (K × V)) (k : K) : Option V :=
  (l.find? (fun p => p.1 = k)).map (fun p => p.2)

/-- `a` if present, else `b`. -/
def orElseO {α : Type} (a b : Option α) : Option α :=
  match a with
  | some v => some v
  | none => b

/- ===================== tags (get_tags) ===================== -/

/-- Modelled from the spec: `merge_dicts` lives in `dagster.utils`, which is
not under `src/`.  The spec states the merged tag mapping equals
`pipeline-entry ∪ user_tags ∪ meta_tags` "with the pipeline key never
overridable" (section 8, property 5), so the merge keeps the left
operand binding when a key occurs in both operands.  With first-match
`lookupKey` semantics, concatenation realises exactly that merge. -/
def merge_dicts (d1 d2 : List (String × String)) : List (String × String) :=
  d1 ++ d2

/-- Keys of `u` and `m` are disjoint (the `user_keys.isdisjoint(provided_keys)`
test of `get_tags`). -/
def tagsDisjoint (u m : List (String × String)) : Bool :=
  u.all (fun p => !(m.any (fun q => q.1 = p.1)))

/-- `get_tags(user_context_params, execution_metadata, pipeline)`.
`userTags` is `user_context_params.tags`, `metaTags` is
`execution_metadata.tags` (`[]` when the metadata is absent or its tags
dict is empty, both falsy in the source test). -/
def get_tags (userTags metaTags : List (String × String)) (pipelineName : String) :
    Except DagsterError (List (String × String)) :=
  let baseTags := merge_dicts [("pipeline", pipelineName)] userTags
  if metaTags.isEmpty then
    .ok baseTags
  else if tagsDisjoint userTags metaTags then
    .ok (merge_dicts baseTags metaTags)
  else
    .error (.invariantViolation
      "You have specified tags and user-defined tags that overlap.")

/- ===================== with_maybe_gen ===================== -/

/-- The argument of `with_maybe_gen`: either a direct value or a generator,
the generator abstracted as the list of items it would yield. -/
inductive ThingOrGen (α : Type) where
  | direct (val : α)
  | gen (items : List α)

/-- `_ensure_gen`: wraps a non-generator value into a one-item generator. -/
def _ensure_gen {α : Type} : ThingOrGen α → List α
  | .direct v => [v]
  | .gen items => items

/-- `with_maybe_gen(thing_or_gen)` used as a context manager around `body`.
The result is the trace of events the scope body emitted together with the
error with which the scope terminated, if any.  The first `next(gen)` runs
before the body (zero items fail here, before anything runs); the second
`next(gen)` runs after the body returns, so a generator with two or more
items fails only after the body has completed. -/
def with_maybe_gen {α : Type} (thingOrGen : ThingOrGen α) (body : α → List Event) :
    List Event × Option DagsterError :=
  match _ensure_gen thingOrGen with
  | [] => ([], some (.checkFailed "Must yield one item. You did not yield anything."))
  | v :: rest =>
    (body v,
      if rest.isEmpty then none
      else some (.checkFailed "Must yield one item. Yielded more than one item"))

/- ===================== persistence policy ===================== -/

/-- The one concrete persistence policy variant (`FilePersistencePolicy`). -/
inductive PersistencePolicy where
  | file
deriving DecidableEq

/-- `_create_persistence_policy(persistence_config)`.  The source takes
`list(persistence_config.items())[0]`: on an empty mapping this is a raw
Python IndexError (kept as a `checkFailed` with a distinguishing message;
the branch is unreachable for validated configs); on a nonempty mapping
the first entry is selected, key "file" yields the file policy and any
other key fails via `check.failed`. -/
def _create_persistence_policy {C : Type} (persistenceConfig : List (String × C)) :
    Except DagsterError PersistencePolicy :=
  match persistenceConfig with
  | [] => .error (.checkFailed "IndexError: list index out of range")
  | (persistenceKey, _configValue) :: _ =>
    if persistenceKey = "file" then .ok PersistencePolicy.file
    else .error (.checkFailed "Unsupported persistence key")

/-- Modelled from the spec: the config evaluator (`types/evaluator.py` and
`system_config`, not under `src/`) validates `env.context.persistence` as a
selector mapping; "validation rejects zero- or multi-entry mappings"
(spec section 9). -/
def validate_persistence_config {C : Type} (persistenceConfig : List (String × C)) : Bool :=
  persistenceConfig.length = 1

/- ===================== step results and solid results ===================== -/

/-- The solid reference a step carries (`step.solid`): its instance name and
the outputs its definition declares (`solid.definition.has_output`). -/
structure SolidRef where
  name : String
  outputs : List String
deriving DecidableEq

/-- `success_data`: `{output_name, value}`. -/
structure SuccessData (V : Type) where
  output_name : String
  value : V
deriving DecidableEq

/-- `StepResult` from `execution_plan.objects`:
`{step, success, kind, success_data?, failure_data?}`.  The owning step is
represented by the data the aggregation reads from it: its solid.
`failureData` models `failure_data.dagster_error`. -/
structure StepResult (V : Type) where
  solid : SolidRef
  kind : StepKind
  success : Bool
  successData : Option (SuccessData V)
  failureData : Option DagsterError
deriving DecidableEq

/-- `SolidExecutionResult`: the per-kind partition of the step results of a
single solid.  The source stores a dict `step_results_by_kind` and exposes
the three kinds through `.get(kind, [])`; the three lists are stored
directly. -/
structure SolidExecutionResult (V : Type) where
  solid : SolidRef
  inputExpectations : List (StepResult V)
  outputExpectations : List (StepResult V)
  transforms : List (StepResult V)
deriving DecidableEq

/-- `itertools.chain(self.input_expectations, self.output_expectations,
self.transforms)`: the scan order shared by `success` and
`dagster_error`. -/
def SolidExecutionResult.chained {V : Type} (s : SolidExecutionResult V) :
    List (StepResult V) :=
  s.inputExpectations ++ s.outputExpectations ++ s.transforms

/-- `SolidExecutionResult.success`: all chained step results succeeded. -/
def SolidExecutionResult.success {V : Type} (s : SolidExecutionResult V) : Bool :=
  s.chained.all (fun r => r.success)

/-- `SolidExecutionResult.transformed_values`: the output-name-to-value dict
of the transform results when the solid succeeded and at least one
transform ran, `None` otherwise.  (The dict comprehension reads
`result.success_data`; successful transform results carry it.) -/
def SolidExecutionResult.transformed_values {V : Type} (s : SolidExecutionResult V) :
    Option (List (String × V)) :=
  if s.success && !s.transforms.isEmpty then
    some (s.transforms.filterMap
      (fun r => r.successData.map (fun sd => (sd.output_name, sd.value))))
  else
    none

/-- `SolidExecutionResult.transformed_value(output_name)`:
invariant violation when the output is not declared on the solid; `None`
when the solid did not succeed; otherwise the value of the first transform
result whose `success_data.output_name` matches (invariant violation when
none matches). -/
def SolidExecutionResult.transformed_value {V : Type} (s : SolidExecutionResult V)
    (outputName : String) : Except DagsterError (Option V) :=
  if !(s.solid.outputs.contains outputName) then
    .error (.invariantViolation "output not defined in solid")
  else if s.success then
    match s.transforms.find?
        (fun r => r.successData.map (fun sd => sd.output_name) = some outputName) with
    | some r => .ok (r.successData.map (fun sd => sd.value))
    | none => .error (.invariantViolation "Did not find result in solid execution result")
  else
    .ok none

/-- `SolidExecutionResult.dagster_error`: the error of the first failing
result in chain order, nothing when all succeeded. -/
def SolidExecutionResult.dagster_error {V : Type} (s : SolidExecutionResult V) :
    Option DagsterError :=
  (s.chained.find? (fun r => !r.success)).bind (fun r => r.failureData)

/-- `SolidExecutionResult.from_results(context, results)`: fails on an empty
list, checks that every result belongs to the same solid as the first, then
partitions by kind (each kind keeps arrival order, as the per-kind append
loop does). -/
def SolidExecutionResult.from_results {V : Type} (results : List (StepResult V)) :
    Except DagsterError (SolidExecutionResult V) :=
  match results with
  | [] => .error (.checkFailed "Cannot create SolidExecutionResult from empty list")
  | r :: rest =>
    if (r :: rest).all (fun x => x.solid = r.solid) then
      .ok
        { solid := r.solid
          inputExpectations := (r :: rest).filter (fun x => x.kind = StepKind.inputExpectation)
          outputExpectations := (r :: rest).filter (fun x => x.kind = StepKind.outputExpectation)
          transforms := (r :: rest).filter (fun x => x.kind = StepKind.transform) }
    else
      .error (.checkFailed "Must all be from same solid")

/- ===================== result aggregation ===================== -/

/-- One `defaultdict(list)` append step of `_process_step_results`: append
`r` to the group of its solid name, creating the group at the end when the
key is new (Python dicts preserve insertion order of keys). -/
def addToGroups {V : Type} (groups : List (String × List (StepResult V)))
    (r : StepResult V) : List (String × List (StepResult V)) :=
  if groups.any (fun g => g.1 = r.solid.name) then
    groups.map (fun g => if g.1 = r.solid.name then (g.1, g.2 ++ [r]) else g)
  else
    groups ++ [(r.solid.name, [r])]

/-- The `step_results_by_solid_name` grouping loop of
`_process_step_results`. -/
def step_results_by_solid_name {V : Type} (stepResults : List (StepResult V)) :
    List (String × List (StepResult V)) :=
  stepResults.foldl addToGroups []

/-- `_process_step_results(context, pipeline, step_results)`: group the
stream by solid name, then for each solid of the pipeline in topological
order that has accumulated results, yield
`SolidExecutionResult.from_results` of its group.  `topoOrder` is
`solids_in_topological_order(pipeline)` by name.  An error raised by
`from_results` would abort the generator; results are kept as `Except` and
proven error-free under the pipeline invariants. -/
def _process_step_results {V : Type} (topoOrder : List String)
    (stepResults : List (StepResult V)) :
    List (Except DagsterError (SolidExecutionResult V)) :=
  topoOrder.filterMap (fun n =>
    (lookupKey (step_results_by_solid_name stepResults) n).map
      (fun rs => SolidExecutionResult.from_results rs))

/-- The value `SolidExecutionResult.from_results` returns on a nonempty
same-solid group: the head solid together with the kind partition of the
group (proved as such below; on the empty list, which `from_results`
rejects, a placeholder). -/
def groupResult {V : Type} (g : List (StepResult V)) : SolidExecutionResult V :=
  match g with
  | [] =>
    { solid := { name := "", outputs := [] }, inputExpectations := [],
      outputExpectations := [], transforms := [] }
  | r :: _ =>
    { solid := r.solid
      inputExpectations := g.filter (fun x => x.kind = StepKind.inputExpectation)
      outputExpectations := g.filter (fun x => x.kind = StepKind.outputExpectation)
      transforms := g.filter (fun x => x.kind = StepKind.transform) }

/-- Sequencing a list of `Except` values, stopping at the first error: the
behaviour of a generator whose body raises. -/
def collectExcept {E A : Type} : List (Except E A) → Except E (List A)
  | [] => .ok []
  | .error e :: _ => .error e
  | .ok a :: rest =>
    match collectExcept rest with
    | .ok l => .ok (a :: l)
    | .error e => .error e

/- ===================== plan driver ===================== -/

/-- An `ExecutionStep` as the externalized-plan validation and the plan
driver read it: its key, the names of its step inputs
(`step_input_dict` keys), and the names of its step outputs
(`has_step_output`). -/
structure Step where
  key : String
  inputs : List String
  outputs : List String
deriving DecidableEq

/-- `execution_plan.has_step(key)`. -/
def hasStep (plan : List Step) (stepKey : String) : Bool :=
  plan.any (fun s => s.key = stepKey)

/-- `execution_plan.get_step_by_key(key)`. -/
def getStepByKey (plan : List Step) (stepKey : String) : Option Step :=
  plan.find? (fun s => s.key = stepKey)

/-- `_do_iterate_pipeline(pipeline, context, typed_environment, ...)`.
`topoSolids` is the pipeline solid topological order by name, `steps` is
`execution_plan.topological_steps()`; the step engine
`execute_plan_core` (external collaborator) is abstracted by the events it
emits and the step results it streams.  Returns the emitted pipeline-level
event trace and the yielded solid results (or the error that aborted the
run). -/
def _do_iterate_pipeline {V : Type} (topoSolids : List String) (steps : List Step)
    (engineEvents : List Event) (engineResults : List (StepResult V)) :
    List Event × Except DagsterError (List (SolidExecutionResult V)) :=
  match steps with
  | [] => ([Event.pipelineStart, Event.pipelineSuccess], .ok [])
  | s0 :: _ =>
    if s0.inputs.length ≠ 0 then
      ([Event.pipelineStart], .error (.checkFailed "first step must have no step inputs"))
    else
      match collectExcept (_process_step_results topoSolids engineResults) with
      | .error e => ([Event.pipelineStart] ++ engineEvents, .error e)
      | .ok results =>
        ([Event.pipelineStart] ++ engineEvents ++
            [if results.all (fun r => r.success) then Event.pipelineSuccess
             else Event.pipelineFailure],
          .ok results)

/- ===================== externalized plan runner ===================== -/

/-- One entry of `outputs_to_marshal[step_key]`: the source checks each dict
has exactly the keys "output" and "path"; the structure carries exactly
those fields. -/
structure MarshalledOutput where
  output : String
  path : String
deriving DecidableEq

/-- The inner loop of `_check_inputs_to_marshal` over one step of the plan:
the first requested input name that the step does not declare produces
`DagsterUnmarshalInputNotFoundError`. -/
def checkInputsForStep (step : Step) (inputDict : List (String × String)) :
    Option DagsterError :=
  (inputDict.find? (fun np => !step.inputs.contains np.1)).map
    (fun np => .unmarshalInputNotFound np.1 step.key)

/-- `_check_inputs_to_marshal(execution_plan, inputs_to_marshal)`: for each
requested step key in order, `DagsterExecutionStepNotFoundError` when the
plan has no such step, else the per-step input check. -/
def _check_inputs_to_marshal (plan : List Step)
    (inputsToMarshal : List (String × List (String × String))) : Option DagsterError :=
  match inputsToMarshal with
  | [] => none
  | (stepKey, inputDict) :: rest =>
    match getStepByKey plan stepKey with
    | none => some (.executionStepNotFound stepKey)
    | some step =>
      match checkInputsForStep step inputDict with
      | some e => some e
      | none => _check_inputs_to_marshal plan rest

/-- The inner loop of `_check_outputs_to_marshal` over one step: the first
requested output the step does not declare produces
`DagsterMarshalOutputNotFoundError`. -/
def checkOutputsForStep (step : Step) (outputsForStep : List MarshalledOutput) :
    Option DagsterError :=
  (outputsForStep.find? (fun o => !step.outputs.contains o.output)).map
    (fun o => .marshalOutputNotFound o.output step.key)

/-- `_check_outputs_to_marshal(execution_plan, outputs_to_marshal)`. -/
def _check_outputs_to_marshal (plan : List Step)
    (outputsToMarshal : List (String × List MarshalledOutput)) : Option DagsterError :=
  match outputsToMarshal with
  | [] => none
  | (stepKey, outputsForStep) :: rest =>
    match getStepByKey plan stepKey with
    | none => some (.executionStepNotFound stepKey)
    | some step =>
      match checkOutputsForStep step outputsForStep with
      | some e => some e
      | none => _check_outputs_to_marshal plan rest

/-- All requested inputs resolve: every requested step key has a step in
the plan and every requested input name is declared on it. -/
def inputsToMarshalValid (plan : List Step)
    (inputsToMarshal : List (String × List (String × String))) : Bool :=
  inputsToMarshal.all (fun kd =>
    match getStepByKey plan kd.1 with
    | some step => kd.2.all (fun np => step.inputs.contains np.1)
    | none => false)

/-- All requested outputs resolve. -/
def outputsToMarshalValid (plan : List Step)
    (outputsToMarshal : List (String × List MarshalledOutput)) : Bool :=
  outputsToMarshal.all (fun kd =>
    match getStepByKey plan kd.1 with
    | some step => kd.2.all (fun o => step.outputs.contains o.output)
    | none => false)

/-- `execute_externalized_plan(pipeline, execution_plan, step_keys,
inputs_to_marshal, outputs_to_marshal, ...)`.  In the source the typed
environment is built, then `yield_context` is entered, and only inside the
open context the two marshal validations run; on success the inputs are
unmarshalled, the plan rebuilt with the subset info and `execute_plan_core`
invoked.  The post-validation phase (unmarshal, rebuild, engine, marshal)
is abstracted as `rest`; `Event.engineInvoked` marks the invocation of
`execute_plan_core`.  Returns the event trace and the step results or the
error. -/
def execute_externalized_plan {V : Type} (plan : List Step) (_stepKeys : List String)
    (inputsToMarshal : List (String × List (String × String)))
    (outputsToMarshal : List (String × List MarshalledOutput))
    (rest : List Event × List (StepResult V)) :
    List Event × Except DagsterError (List (StepResult V)) :=
  let opened : List Event := [Event.contextOpened]
  match _check_inputs_to_marshal plan inputsToMarshal with
  | some e => (opened, .error e)
  | none =>
    match _check_outputs_to_marshal plan outputsToMarshal with
    | some e => (opened, .error e)
    | none => (opened ++ [Event.engineInvoked] ++ rest.1, .ok rest.2)

/- ===================== result_for_solid ===================== -/

/-- `PipelineExecutionResult.result_for_solid(name)`: invariant violation
when the pipeline has no solid of that name (`pipeline.has_solid`), else
the first entry of `result_list` whose solid name matches, else invariant
violation.  `pipelineSolids` is the pipeline solid name set. -/
def result_for_solid {V : Type} (pipelineSolids : List String)
    (resultList : List (SolidExecutionResult V)) (name : String) :
    Except DagsterError (SolidExecutionResult V) :=
  if pipelineSolids.contains name then
    match resultList.find? (fun r => r.solid.name = name) with
    | some r => .ok r
    | none =>
      .error (.invariantViolation "Did not find result for solid in pipeline execution result")
  else
    .error (.invariantViolation "No such solid")

/- ===================== build_sub_pipeline ===================== -/

/-- A solid instance of a pipeline: its instance name, the name of its
definition, and the input names its definition declares
(`solid.input_handles()` ranges over them). -/
structure PSolid where
  name : String
  defName : String
  inputDefs : List String
deriving DecidableEq

/-- An input handle `(solid instance name, input name)`. -/
structure InputHandle where
  solidName : String
  inputName : String
deriving DecidableEq

/-- An output handle `(solid instance name, output name)`. -/
structure OutputHandle where
  solidName : String
  outputName : String
deriving DecidableEq

/-- `SolidInstance(solid.definition.name, solid.name)`, the dependency-dict
key `_dep_key_of` builds. -/
structure SolidInstance where
  defName : String
  instName : String
deriving DecidableEq

/-- `DependencyDefinition(solid=..., output=...)`. -/
structure DependencyDefinition where
  solid : String
  output : String
deriving DecidableEq

/-- The pipeline as `build_sub_pipeline` reads it: name, context
definitions (left abstract: they are reused verbatim), solid instances,
and the dependency structure as a map from input handles to the output
handle feeding them (`has_dep` / `get_dep`). -/
structure PipelineDefinition (Ctx : Type) where
  name : String
  contextDefinitions : Ctx
  solids : List PSolid
  depends : List (InputHandle × OutputHandle)

/-- `pipeline_def.solid_named(name)`. -/
def solid_named {Ctx : Type} (p : PipelineDefinition Ctx) (n : String) : Option PSolid :=
  p.solids.find? (fun s => s.name = n)

/-- Sequencing of a lookup over a list, failing when any element fails:
models `list(map(pipeline_def.solid_named, solid_names))` where a missing
name raises inside `solid_named`. -/
def mapOption {α β : Type} (f : α → Option β) : List α → Option (List β)
  | [] => some []
  | a :: t =>
    match f a with
    | none => none
    | some b =>
      match mapOption f t with
      | none => none
      | some bs => some (b :: bs)

/-- `_dep_key_of(solid)`. -/
def _dep_key_of (s : PSolid) : SolidInstance :=
  { defName := s.defName, instName := s.name }

/-- `_out_handle_of_inp` followed by the retained-edge construction, for one
input of one kept solid: the `DependencyDefinition` recorded for that
input, if any (the original structure has a dep for the handle and the
producing solid is in the subset). -/
def subDepEntry {Ctx : Type} (p : PipelineDefinition Ctx) (solidNames : List String)
    (solidName : String) (inputName : String) : Option DependencyDefinition :=
  match lookupKey p.depends { solidName := solidName, inputName := inputName } with
  | some oh =>
    if solidNames.contains oh.solidName then
      some { solid := oh.solidName, output := oh.outputName }
    else none
  | none => none

/-- The dependency dict built for one kept solid: one entry per input
handle that keeps its edge (each loop iteration writes a distinct input
name, so the dict is this association list). -/
def subDepsForSolid {Ctx : Type} (p : PipelineDefinition Ctx) (solidNames : List String)
    (s : PSolid) : List (String × DependencyDefinition) :=
  s.inputDefs.filterMap (fun inp =>
    (subDepEntry p solidNames s.name inp).map (fun dd => (inp, dd)))

/-- The arguments `build_sub_pipeline` passes to the `PipelineDefinition`
constructor (the constructor itself lives in `definitions`, outside
`src/`): the original name and context definitions, the deduplicated
definition set, and the rebuilt dependency dict.  The dict is represented
as the key-to-value map it denotes: duplicate instance names in
`solid_names` write identical entries, so the map is well defined. -/
structure SubPipeline (Ctx : Type) where
  name : String
  contextDefinitions : Ctx
  solidDefs : List String
  deps : SolidInstance → Option (List (String × DependencyDefinition))

/-- `build_sub_pipeline(pipeline_def, solid_names)`: `none` when some name
has no solid (the source raises inside `solid_named`). -/
def build_sub_pipeline {Ctx : Type} (p : PipelineDefinition Ctx) (solidNames : List String) :
    Option (SubPipeline Ctx) :=
  (mapOption (fun n => solid_named p n) solidNames).map (fun solids =>
    { name := p.name
      contextDefinitions := p.contextDefinitions
      solidDefs := (solids.map (fun s => s.defName)).dedup
      deps := fun key =>
        (solids.find? (fun s => _dep_key_of s = key)).map
          (fun s => subDepsForSolid p solidNames s) })

/-- A concrete two-result step stream, arriving in anti-topological order
(solid b before solid a), used to witness the aggregation. -/
def demoStream : List (StepResult Nat) :=
  [{ solid := { name := "b", outputs := ["result"] }, kind := StepKind.transform,
     success := true, successData := some { output_name := "result", value := 1 },
     failureData := none },
   { solid := { name := "a", outputs := ["result"] }, kind := StepKind.transform,
     success := true, successData := some { output_name := "result", value := 2 },
     failureData := none }]

/-- A concrete three-solid pipeline (a feeds b, b feeds c) used to witness
the sub-pipeline construction. -/
def demoPipeline : PipelineDefinition Unit :=
  { name := "pipe"
    contextDefinitions := ()
    solids :=
      [{ name := "a", defName := "adef", inputDefs := [] },
       { name := "b", defName := "bdef", inputDefs := ["in1"] },
       { name := "c", defName := "cdef", inputDefs := ["in2"] }]
    depends :=
      [({ solidName := "b", inputName := "in1" },
        { solidName := "a", outputName := "result" }),
       ({ solidName := "c", inputName := "in2" },
        { solidName := "b", outputName := "result" })] }

end DagsterExec

namespace DagsterExec

/- ===================== helper lemmas ===================== -/

/-- Lookup after a cons inspects the head first. -/
theorem lookupKey_cons {K V : Type} [DecidableEq K] (a : K × V) (l : List (K × V)) (k : K) :
    lookupKey (a :: l) k = if a.1 = k then some a.2 else lookupKey l k := by
  by_cases h : a.1 = k <;> simp [lookupKey, List.find?_cons, h]

/-- Lookup distributes over append, preferring the left list. -/
theorem lookupKey_append {K V : Type} [DecidableEq K] (l1 l2 : List (K × V)) (k : K) :
    lookupKey (l1 ++ l2) k = orElseO (lookupKey l1 k) (lookupKey l2 k) := by
  induction l1 with
  | nil => simp [lookupKey, orElseO]
  | cons a t ih =>
    rw [List.cons_append, lookupKey_cons, lookupKey_cons]
    by_cases h : a.1 = k
    · simp [h, orElseO]
    · simp [h, ih]

/-- Right unit for `orElseO`. -/
theorem orElseO_none_right {α : Type} (a : Option α) : orElseO a none = a := by
  cases a <;> rfl

/-- Elements failing the predicate are skipped by `find?`. -/
theorem find_skip_prefix {α : Type} (p : α → Bool) (l1 l2 : List α)
    (h : ∀ x ∈ l1, p x = false) : (l1 ++ l2).find? p = l2.find? p := by
  induction l1 with
  | nil => rfl
  | cons a t ih =>
    have ha := h a (by simp)
    rw [List.cons_append, List.find?_cons, ha]
    exact ih (fun x hx => h x (by simp [hx]))

/-- Boolean membership agrees with membership for decidable equality. -/
theorem contains_iff_mem {α : Type} [DecidableEq α] (l : List α) (a : α) :
    l.contains a = true ↔ a ∈ l := by
  simp

/- ===================== C1 ===================== -/

/-- C1: when the key sets of the user-context tags and the metadata tags
overlap, `get_tags` raises an invariant violation; otherwise the merged
mapping binds "pipeline" to the pipeline name (never overridden by either
tag source) and binds every other key as the union of user tags and
metadata tags. -/
theorem get_tags_merges_tags (u m : List (String × String)) (p : String) :
    (tagsDisjoint u m = false →
      ∃ msg, get_tags u m p = .error (.invariantViolation msg)) ∧
    (tagsDisjoint u m = true →
      ∃ t, get_tags u m p = .ok t ∧
        lookupKey t "pipeline" = some p ∧
        ∀ k, k ≠ "pipeline" → lookupKey t k = orElseO (lookupKey u k) (lookupKey m k)) := by
  constructor
  · intro hdis
    have hm : m.isEmpty = false := by
      cases m with
      | nil => simp [tagsDisjoint] at hdis
      | cons a t => rfl
    refine ⟨"You have specified tags and user-defined tags that overlap.", ?_⟩
    simp [get_tags, hm, hdis]
  · intro hdis
    cases hm : m.isEmpty with
    | true =>
      have hmnil : m = [] := by
        cases m with
        | nil => rfl
        | cons a t => simp [List.isEmpty] at hm
      refine ⟨merge_dicts [("pipeline", p)] u, by simp [get_tags, hm], ?_, ?_⟩
      · simp [merge_dicts, lookupKey_cons]
      · intro k hk
        subst hmnil
        rw [merge_dicts, List.singleton_append, lookupKey_cons]
        simp only [Ne.symm hk, if_false]
        rw [show lookupKey ([] : List (String × String)) k = none from rfl, orElseO_none_right]
    | false =>
      refine ⟨merge_dicts (merge_dicts [("pipeline", p)] u) m,
        by simp [get_tags, hm, hdis], ?_, ?_⟩
      · simp [merge_dicts, lookupKey_cons]
      · intro k hk
        rw [merge_dicts, merge_dicts, List.singleton_append, List.cons_append,
          lookupKey_cons]
        simp only [Ne.symm hk, if_false]
        exact lookupKey_append u m k

/-- C1 witness: a concrete overlapping pair raises, a concrete disjoint
pair merges with the pipeline key bound to the pipeline name. -/
theorem get_tags_merges_tags_witness :
    (tagsDisjoint [("env", "prod")] [("env", "dev")] = false ∧
      ∃ msg, get_tags [("env", "prod")] [("env", "dev")] "p" =
        .error (.invariantViolation msg)) ∧
    (tagsDisjoint [("a", "1")] [("b", "2")] = true ∧
      ∃ t, get_tags [("a", "1")] [("b", "2")] "p" = .ok t ∧
        lookupKey t "pipeline" = some "p" ∧
        ∀ k, k ≠ "pipeline" →
          lookupKey t k = orElseO (lookupKey [("a", "1")] k) (lookupKey [("b", "2")] k)) :=
  ⟨⟨by decide, (get_tags_merges_tags [("env", "prod")] [("env", "dev")] "p").1 (by decide)⟩,
   ⟨by decide, (get_tags_merges_tags [("a", "1")] [("b", "2")] "p").2 (by decide)⟩⟩

/- ===================== C3 ===================== -/

/-- C3: on a validated (single-entry) persistence mapping the key "file"
selects the file policy and any other key fails with an invariant
violation; the (spec-modelled) validation rejects zero- and multi-entry
mappings. -/
theorem persistence_policy_selection {C : Type} (cfg : List (String × C)) :
    (validate_persistence_config cfg = true →
      ∃ k c, cfg = [(k, c)] ∧
        ((k = "file" → _create_persistence_policy cfg = .ok PersistencePolicy.file) ∧
         (k ≠ "file" → ∃ e, _create_persistence_policy cfg = .error e ∧
            e.isInvariantViolation = true))) ∧
    (cfg = [] → validate_persistence_config cfg = false) ∧
    (2 ≤ cfg.length → validate_persistence_config cfg = false) := by
  refine ⟨?_, ?_, ?_⟩
  · intro h
    have hl : cfg.length = 1 := by simpa [validate_persistence_config] using h
    match cfg, hl with
    | [(k, c)], _ =>
      refine ⟨k, c, rfl, ?_, ?_⟩
      · intro hk; simp [_create_persistence_policy, hk]
      · intro hk
        exact ⟨.checkFailed "Unsupported persistence key",
          by simp [_create_persistence_policy, hk], rfl⟩
  · intro h; subst h; rfl
  · intro h
    simp only [validate_persistence_config, decide_eq_false_iff_not]
    omega

/-- C3 witness: the concrete single-entry mappings and a concrete
two-entry mapping. -/
theorem persistence_policy_selection_witness :
    (∃ k c, [("file", 0)] = [(k, c)] ∧
      ((k = "file" → _create_persistence_policy [("file", (0 : Nat))] = .ok PersistencePolicy.file) ∧
       (k ≠ "file" → ∃ e, _create_persistence_policy [("file", (0 : Nat))] = .error e ∧
          e.isInvariantViolation = true))) ∧
    validate_persistence_config [("a", (0 : Nat)), ("b", 0)] = false :=
  ⟨(persistence_policy_selection [("file", (0 : Nat))]).1 (by decide),
   (persistence_policy_selection [("a", (0 : Nat)), ("b", 0)]).2.2 (by decide)⟩

/- ===================== C7 ===================== -/

/-- C7 counterexample: a generator-shaped factory yielding two items does
NOT fail before any step runs.  The scope body (here: one step event)
executes to completion, and only then, on scope exit, is the invariant
violation raised — refuting the claim that a factory yielding two or more
items fails before any step runs. -/
theorem with_maybe_gen_two_items_runs_body :
    with_maybe_gen (ThingOrGen.gen [0, 1]) (fun _ : Nat => [Event.stepEvent "a.transform"]) =
      ([Event.stepEvent "a.transform"],
        some (.checkFailed "Must yield one item. Yielded more than one item")) := by
  rfl

/-- C7 amended: a factory yielding zero items fails with an invariant
violation before the scope body runs (empty trace); a factory yielding
exactly one item (or returning a direct value) provides that value to the
scope with no error; a factory yielding two or more items runs the scope
body to completion and only then fails with an invariant violation on
scope exit. -/
theorem with_maybe_gen_shape_enforcement {α : Type} (tg : ThingOrGen α)
    (body : α → List Event) :
    (_ensure_gen tg = [] →
      with_maybe_gen tg body =
        ([], some (.checkFailed "Must yield one item. You did not yield anything."))) ∧
    (∀ v, _ensure_gen tg = [v] → with_maybe_gen tg body = (body v, none)) ∧
    (∀ v w rest, _ensure_gen tg = v :: w :: rest →
      with_maybe_gen tg body =
        (body v, some (.checkFailed "Must yield one item. Yielded more than one item"))) ∧
    (∀ v, with_maybe_gen (ThingOrGen.direct v) body = (body v, none)) := by
  refine ⟨?_, ?_, ?_, ?_⟩
  · intro h; simp [with_maybe_gen, h]
  · intro v h; simp [with_maybe_gen, h]
  · intro v w rest h; simp [with_maybe_gen, h]
  · intro v; simp [with_maybe_gen, _ensure_gen]

/-- C7 witness: concrete zero-, one- and two-item factories. -/
theorem with_maybe_gen_shape_enforcement_witness :
    with_maybe_gen (ThingOrGen.gen ([] : List Nat)) (fun _ => [Event.engineInvoked]) =
      ([], some (.checkFailed "Must yield one item. You did not yield anything.")) ∧
    with_maybe_gen (ThingOrGen.gen [7]) (fun _ : Nat => [Event.engineInvoked]) =
      ([Event.engineInvoked], none) ∧
    with_maybe_gen (ThingOrGen.direct 7) (fun _ : Nat => [Event.engineInvoked]) =
      ([Event.engineInvoked], none) :=
  ⟨(with_maybe_gen_shape_enforcement (ThingOrGen.gen ([] : List Nat)) _).1 rfl,
   (with_maybe_gen_shape_enforcement (ThingOrGen.gen [7]) _).2.1 7 rfl,
   (with_maybe_gen_shape_enforcement (ThingOrGen.direct 7) _).2.2.2 7⟩

/- ===================== C8 ===================== -/

/-- C8: a pipeline whose plan has zero topological steps emits exactly
`pipeline_start` followed by `pipeline_success` (no step event and no
`pipeline_failure` in between) and yields no solid results. -/
theorem empty_plan_emits_start_then_success {V : Type} (topoSolids : List String)
    (engineEvents : List Event) (engineResults : List (StepResult V)) (steps : List Step)
    (h : steps = []) :
    _do_iterate_pipeline topoSolids steps engineEvents engineResults =
      ([Event.pipelineStart, Event.pipelineSuccess], .ok []) := by
  subst h; rfl

/-- C8 witness: a concrete empty plan. -/
theorem empty_plan_emits_start_then_success_witness :
    _do_iterate_pipeline ["a"] [] [Event.stepEvent "x"] ([] : List (StepResult Nat)) =
      ([Event.pipelineStart, Event.pipelineSuccess], .ok []) :=
  empty_plan_emits_start_then_success ["a"] [Event.stepEvent "x"] [] [] rfl

/- ===================== C9 ===================== -/

/-- C9: `result_for_solid` raises an invariant violation when the pipeline
has no solid of that name, raises an invariant violation when the solid
exists but no result for it is in the result list, and otherwise returns
the first result whose solid name matches. -/
theorem result_for_solid_spec {V : Type} (pipelineSolids : List String)
    (resultList : List (SolidExecutionResult V)) (name : String) :
    (pipelineSolids.contains name = false →
      ∃ msg, result_for_solid pipelineSolids resultList name =
        .error (.invariantViolation msg)) ∧
    (pipelineSolids.contains name = true →
      (∀ r ∈ resultList, r.solid.name ≠ name) →
      ∃ msg, result_for_solid pipelineSolids resultList name =
        .error (.invariantViolation msg)) ∧
    (pipelineSolids.contains name = true →
      ∀ l1 r l2, resultList = l1 ++ r :: l2 → r.solid.name = name →
        (∀ x ∈ l1, x.solid.name ≠ name) →
        result_for_solid pipelineSolids resultList name = .ok r) := by
  refine ⟨?_, ?_, ?_⟩
  · intro h
    have hmem : ¬(name ∈ pipelineSolids) := by simpa using h
    refine ⟨"No such solid", ?_⟩
    simp [result_for_solid, hmem]
  · intro h hnone
    have hmem : name ∈ pipelineSolids := by simpa using h
    have hfind : resultList.find? (fun r => r.solid.name = name) = none := by
      rw [List.find?_eq_none]
      intro r hr
      simp [hnone r hr]
    refine ⟨"Did not find result for solid in pipeline execution result", ?_⟩
    simp [result_for_solid, hmem, hfind]
  · intro h l1 r l2 heq hr hl1
    have hmem : name ∈ pipelineSolids := by simpa using h
    have hfind : resultList.find? (fun x => x.solid.name = name) = some r := by
      rw [heq, find_skip_prefix _ l1 _ (fun x hx => by simp [hl1 x hx]), List.find?_cons]
      simp [hr]
    simp [result_for_solid, hmem, hfind]

/-- C9 witness: a concrete pipeline and result list exercising all three
branches. -/
theorem result_for_solid_spec_witness :
    (∃ msg, result_for_solid ["a"] ([] : List (SolidExecutionResult Nat)) "z" =
      .error (.invariantViolation msg)) ∧
    (∃ msg, result_for_solid ["a"] ([] : List (SolidExecutionResult Nat)) "a" =
      .error (.invariantViolation msg)) ∧
    result_for_solid ["a"]
        [{ solid := { name := "a", outputs := [] }, inputExpectations := [],
           outputExpectations := [], transforms := [] }] "a" =
      .ok { solid := { name := "a", outputs := ([] : List String) },
            inputExpectations := ([] : List (StepResult Nat)),
            outputExpectations := [], transforms := [] } :=
  ⟨(result_for_solid_spec ["a"] ([] : List (SolidExecutionResult Nat)) "z").1 (by decide),
   (result_for_solid_spec ["a"] ([] : List (SolidExecutionResult Nat)) "a").2.1 (by decide)
     (by intro r hr; simp at hr),
   (result_for_solid_spec ["a"] _ "a").2.2 (by decide) [] _ [] rfl rfl
     (by intro x hx; simp at hx)⟩

/- ===================== C10 ===================== -/

/-- C10: `dagster_error` returns the failure error of the first
unsuccessful step result when scanning input expectations, then output
expectations, then transforms, and returns nothing when every contained
step result succeeded. -/
theorem dagster_error_spec {V : Type} (s : SolidExecutionResult V) :
    ((∀ r ∈ s.chained, r.success = true) → s.dagster_error = none) ∧
    (∀ l1 r l2, s.chained = l1 ++ r :: l2 → r.success = false →
      (∀ x ∈ l1, x.success = true) →
      ∀ e, r.failureData = some e → s.dagster_error = some e) := by
  constructor
  · intro h
    have hfind : s.chained.find? (fun r => !r.success) = none := by
      rw [List.find?_eq_none]
      intro r hr
      simp [h r hr]
    simp [SolidExecutionResult.dagster_error, hfind]
  · intro l1 r l2 heq hr hl1 e he
    have hfind : s.chained.find? (fun x => !x.success) = some r := by
      rw [heq, find_skip_prefix _ l1 _ (fun x hx => by simp [hl1 x hx]), List.find?_cons]
      simp [hr]
    simp [SolidExecutionResult.dagster_error, hfind, he]

/-- C10 witness: a solid result whose second input expectation failed. -/
theorem dagster_error_spec_witness :
    SolidExecutionResult.dagster_error
      { solid := { name := "a", outputs := [] },
        inputExpectations :=
          [{ solid := { name := "a", outputs := [] }, kind := StepKind.inputExpectation,
             success := true, successData := (none : Option (SuccessData Nat)),
             failureData := none },
           { solid := { name := "a", outputs := [] }, kind := StepKind.inputExpectation,
             success := false, successData := none,
             failureData := some (.invariantViolation "boom") }],
        outputExpectations := [], transforms := [] } =
      some (.invariantViolation "boom") :=
  (dagster_error_spec
      { solid := { name := "a", outputs := [] },
        inputExpectations :=
          [{ solid := { name := "a", outputs := [] }, kind := StepKind.inputExpectation,
             success := true, successData := (none : Option (SuccessData Nat)),
             failureData := none },
           { solid := { name := "a", outputs := [] }, kind := StepKind.inputExpectation,
             success := false, successData := none,
             failureData := some (.invariantViolation "boom") }],
        outputExpectations := [], transforms := [] }).2
    [{ solid := { name := "a", outputs := [] }, kind := StepKind.inputExpectation,
       success := true, successData := (none : Option (SuccessData Nat)),
       failureData := none }]
    { solid := { name := "a", outputs := [] }, kind := StepKind.inputExpectation,
      success := false, successData := none,
      failureData := some (.invariantViolation "boom") }
    [] rfl rfl (by intro x hx; simp at hx; simp [hx]) _ rfl

/- ===================== C6 ===================== -/

/-- C6: `success` holds iff every contained step result succeeded;
`transformed_values` is the output-name-to-value mapping of the transforms
iff success holds and at least one transform ran, and nothing otherwise;
`transformed_value(name)` raises an invariant violation when the name is
not a declared output, returns nothing when the solid did not succeed, and
otherwise returns the transform value for that output. -/
theorem solid_execution_result_spec {V : Type} (s : SolidExecutionResult V) :
    (s.success = true ↔ ∀ r ∈ s.chained, r.success = true) ∧
    (s.success = true → s.transforms ≠ [] →
      ∃ l, s.transformed_values = some l ∧
        ∀ r ∈ s.transforms, ∀ sd, r.successData = some sd →
          (sd.output_name, sd.value) ∈ l) ∧
    (s.success = false ∨ s.transforms = [] → s.transformed_values = none) ∧
    (∀ outputName, outputName ∉ s.solid.outputs →
      ∃ msg, s.transformed_value outputName = .error (.invariantViolation msg)) ∧
    (∀ outputName, outputName ∈ s.solid.outputs → s.success = false →
      s.transformed_value outputName = .ok none) ∧
    (∀ outputName, outputName ∈ s.solid.outputs → s.success = true →
      ∀ l1 r l2, s.transforms = l1 ++ r :: l2 →
        (∀ x ∈ l1, x.successData.map (fun sd => sd.output_name) ≠ some outputName) →
        ∀ sd, r.successData = some sd → sd.output_name = outputName →
        s.transformed_value outputName = .ok (some sd.value)) := by
  refine ⟨?_, ?_, ?_, ?_, ?_, ?_⟩
  · simp [SolidExecutionResult.success, List.all_eq_true]
  · intro hs ht
    have hne : s.transforms.isEmpty = false := by
      cases htr : s.transforms with
      | nil => exact absurd htr ht
      | cons a t => rfl
    refine ⟨s.transforms.filterMap
        (fun r => r.successData.map (fun sd => (sd.output_name, sd.value))),
      by simp [SolidExecutionResult.transformed_values, hs, hne], ?_⟩
    intro r hr sd hsd
    exact List.mem_filterMap.mpr ⟨r, hr, by simp [hsd]⟩
  · intro h
    cases h with
    | inl hs => simp [SolidExecutionResult.transformed_values, hs]
    | inr ht => simp [SolidExecutionResult.transformed_values, ht]
  · intro o ho
    refine ⟨"output not defined in solid", ?_⟩
    simp [SolidExecutionResult.transformed_value, ho]
  · intro o ho hs
    simp [SolidExecutionResult.transformed_value, ho, hs]
  · intro o ho hs l1 r l2 htr hl1 sd hsd hname
    have hfind : s.transforms.find?
        (fun x => x.successData.map (fun d => d.output_name) = some o) = some r := by
      rw [htr, find_skip_prefix _ l1 _ (fun x hx => by simp [hl1 x hx]), List.find?_cons]
      simp [hsd, hname]
    simp only [SolidExecutionResult.transformed_value]
    rw [hfind]
    simp [ho, hs, hsd]

/-- C6 witness: a concrete successful solid result with one transform. -/
theorem solid_execution_result_spec_witness :
    (SolidExecutionResult.success
      { solid := { name := "a", outputs := ["out"] },
        inputExpectations := ([] : List (StepResult Nat)), outputExpectations := [],
        transforms :=
          [{ solid := { name := "a", outputs := ["out"] }, kind := StepKind.transform,
             success := true, successData := some { output_name := "out", value := 42 },
             failureData := none }] } = true ↔
      ∀ r ∈ SolidExecutionResult.chained
        { solid := { name := "a", outputs := ["out"] },
          inputExpectations := ([] : List (StepResult Nat)), outputExpectations := [],
          transforms :=
            [{ solid := { name := "a", outputs := ["out"] }, kind := StepKind.transform,
               success := true, successData := some { output_name := "out", value := 42 },
               failureData := none }] }, r.success = true) ∧
    SolidExecutionResult.transformed_value
      { solid := { name := "a", outputs := ["out"] },
        inputExpectations := ([] : List (StepResult Nat)), outputExpectations := [],
        transforms :=
          [{ solid := { name := "a", outputs := ["out"] }, kind := StepKind.transform,
             success := true, successData := some { output_name := "out", value := 42 },
             failureData := none }] } "out" = .ok (some 42) :=
  ⟨(solid_execution_result_spec _).1,
   (solid_execution_result_spec
      { solid := { name := "a", outputs := ["out"] },
        inputExpectations := ([] : List (StepResult Nat)), outputExpectations := [],
        transforms :=
          [{ solid := { name := "a", outputs := ["out"] }, kind := StepKind.transform,
             success := true, successData := some { output_name := "out", value := 42 },
             failureData := none }] }).2.2.2.2.2 "out" (by decide) (by decide)
     [] _ [] rfl (by intro x hx; simp at hx) { output_name := "out", value := 42 } rfl rfl⟩

/- ===================== C2 ===================== -/

/-- Absence of a step key in the plan, in the two phrasings used by the
source (`find?`-based lookup and `any`-based `has_step`). -/
theorem getStepByKey_none_iff (plan : List Step) (k : String) :
    getStepByKey plan k = none ↔ hasStep plan k = false := by
  simp [getStepByKey, hasStep, List.find?_eq_none, List.any_eq_false]

/-- The per-step input check passes exactly when every requested input is
declared on the step. -/
theorem checkInputsForStep_none_iff (step : Step) (d : List (String × String)) :
    checkInputsForStep step d = none ↔
      d.all (fun np => step.inputs.contains np.1) = true := by
  simp [checkInputsForStep, List.find?_eq_none, List.all_eq_true]

/-- When the per-step input check fails, it names an input that the step
does not declare. -/
theorem checkInputsForStep_some (step : Step) (d : List (String × String))
    (e : DagsterError) (h : checkInputsForStep step d = some e) :
    ∃ np ∈ d, step.inputs.contains np.1 = false ∧
      e = .unmarshalInputNotFound np.1 step.key := by
  simp only [checkInputsForStep, Option.map_eq_some'] at h
  obtain ⟨np, hfind, he⟩ := h
  refine ⟨np, List.mem_of_find?_eq_some hfind, ?_, he.symm⟩
  have := List.find?_some hfind
  simpa using this

/-- The per-step output check passes exactly when every requested output is
declared on the step. -/
theorem checkOutputsForStep_none_iff (step : Step) (outs : List MarshalledOutput) :
    checkOutputsForStep step outs = none ↔
      outs.all (fun o => step.outputs.contains o.output) = true := by
  simp [checkOutputsForStep, List.find?_eq_none, List.all_eq_true]

/-- When the per-step output check fails, it names an output that the step
does not declare. -/
theorem checkOutputsForStep_some (step : Step) (outs : List MarshalledOutput)
    (e : DagsterError) (h : checkOutputsForStep step outs = some e) :
    ∃ o ∈ outs, step.outputs.contains o.output = false ∧
      e = .marshalOutputNotFound o.output step.key := by
  simp only [checkOutputsForStep, Option.map_eq_some'] at h
  obtain ⟨o, hfind, he⟩ := h
  refine ⟨o, List.mem_of_find?_eq_some hfind, ?_, he.symm⟩
  have := List.find?_some hfind
  simpa using this

/-- C2 counterexample: an externalized-plan request whose
`inputs_to_marshal` references the unknown step key "missing".  The
`DagsterExecutionStepNotFoundError` is raised, but the event trace at the
moment of the raise already contains `contextOpened` — the execution
context was opened before the error was raised, refuting the claim that
the error is raised before the execution context is opened.  (The trace
contains no `engineInvoked`: the step engine was indeed never invoked.) -/
theorem externalized_plan_validation_counterexample :
    execute_externalized_plan [{ key := "a.transform", inputs := [], outputs := ["result"] }]
        ["a.transform"] [("missing", [("x", "path")])] []
        (([], []) : List Event × List (StepResult Nat)) =
      ([Event.contextOpened], .error (.executionStepNotFound "missing")) := by
  rfl

/-- C2 amended: a request referencing an absent step key (or absent input
or output name) fails with the corresponding
`DagsterExecutionStepNotFoundError` / `DagsterUnmarshalInputNotFoundError`
/ `DagsterMarshalOutputNotFoundError` AFTER the execution context is
opened but before the step engine is invoked, and in every such failing
run the step engine is never invoked: the trace of a failing run is
exactly `[contextOpened]`. -/
theorem externalized_plan_validation {V : Type} (plan : List Step) (stepKeys : List String)
    (itm : List (String × List (String × String)))
    (otm : List (String × List MarshalledOutput))
    (rest : List Event × List (StepResult V)) :
    (∀ e, _check_inputs_to_marshal plan itm = some e →
      execute_externalized_plan plan stepKeys itm otm rest =
        ([Event.contextOpened], .error e)) ∧
    (∀ e, _check_inputs_to_marshal plan itm = none →
      _check_outputs_to_marshal plan otm = some e →
      execute_externalized_plan plan stepKeys itm otm rest =
        ([Event.contextOpened], .error e)) ∧
    (_check_inputs_to_marshal plan itm = none ↔ inputsToMarshalValid plan itm = true) ∧
    (_check_outputs_to_marshal plan otm = none ↔ outputsToMarshalValid plan otm = true) ∧
    (∀ e, _check_inputs_to_marshal plan itm = some e →
      (∃ k, e = .executionStepNotFound k ∧ hasStep plan k = false ∧ k ∈ itm.map Prod.fst) ∨
      (∃ n k, e = .unmarshalInputNotFound n k ∧
        ∃ s ∈ plan, s.key = k ∧ n ∉ s.inputs)) ∧
    (∀ e, _check_outputs_to_marshal plan otm = some e →
      (∃ k, e = .executionStepNotFound k ∧ hasStep plan k = false ∧ k ∈ otm.map Prod.fst) ∨
      (∃ o k, e = .marshalOutputNotFound o k ∧
        ∃ s ∈ plan, s.key = k ∧ o ∉ s.outputs)) := by
  refine ⟨?_, ?_, ?_, ?_, ?_, ?_⟩
  · intro e h
    simp [execute_externalized_plan, h]
  · intro e h1 h2
    simp [execute_externalized_plan, h1, h2]
  · induction itm with
    | nil => simp [_check_inputs_to_marshal, inputsToMarshalValid]
    | cons kd t ih =>
      obtain ⟨k, d⟩ := kd
      simp only [_check_inputs_to_marshal, inputsToMarshalValid, List.all_cons,
        Bool.and_eq_true]
      cases hstep : getStepByKey plan k with
      | none => simp
      | some step =>
        dsimp only
        cases hchk : checkInputsForStep step d with
        | some e0 =>
          dsimp only
          constructor
          · intro hc; cases hc
          · rintro ⟨hc, -⟩
            rw [← checkInputsForStep_none_iff, hchk] at hc
            cases hc
        | none =>
          dsimp only
          simp only [inputsToMarshalValid] at ih
          rw [ih]
          constructor
          · intro hv; exact ⟨(checkInputsForStep_none_iff step d).mp hchk, hv⟩
          · rintro ⟨-, hv⟩; exact hv
  · induction otm with
    | nil => simp [_check_outputs_to_marshal, outputsToMarshalValid]
    | cons kd t ih =>
      obtain ⟨k, d⟩ := kd
      simp only [_check_outputs_to_marshal, outputsToMarshalValid, List.all_cons,
        Bool.and_eq_true]
      cases hstep : getStepByKey plan k with
      | none => simp
      | some step =>
        dsimp only
        cases hchk : checkOutputsForStep step d with
        | some e0 =>
          dsimp only
          constructor
          · intro hc; cases hc
          · rintro ⟨hc, -⟩
            rw [← checkOutputsForStep_none_iff, hchk] at hc
            cases hc
        | none =>
          dsimp only
          simp only [outputsToMarshalValid] at ih
          rw [ih]
          constructor
          · intro hv; exact ⟨(checkOutputsForStep_none_iff step d).mp hchk, hv⟩
          · rintro ⟨-, hv⟩; exact hv
  · induction itm with
    | nil => intro e he; cases he
    | cons kd t ih =>
      obtain ⟨k, d⟩ := kd
      simp only [_check_inputs_to_marshal]
      cases hstep : getStepByKey plan k with
      | none =>
        intro e he
        have h1 : (some (DagsterError.executionStepNotFound k) : Option DagsterError) =
            some e := he
        injection h1 with h1
        left
        exact ⟨k, h1.symm, (getStepByKey_none_iff plan k).mp hstep, by simp⟩
      | some step =>
        dsimp only
        cases hchk : checkInputsForStep step d with
        | some e0 =>
          dsimp only
          intro e he
          have h1 : (some e0 : Option DagsterError) = some e := he
          injection h1 with h1
          obtain ⟨np, hmem, hcont, heq⟩ := checkInputsForStep_some step d e0 hchk
          right
          refine ⟨np.1, step.key, by rw [← h1, heq], step,
            List.mem_of_find?_eq_some hstep, rfl, ?_⟩
          intro hin
          rw [(contains_iff_mem step.inputs np.1).mpr hin] at hcont
          cases hcont
        | none =>
          dsimp only
          intro e he
          have he' : _check_inputs_to_marshal plan t = some e := he
          rcases ih e he' with h | h
          · left
            obtain ⟨k0, h1, h2, h3⟩ := h
            exact ⟨k0, h1, h2, by simp [h3]⟩
          · right
            exact h
  · induction otm with
    | nil => intro e he; cases he
    | cons kd t ih =>
      obtain ⟨k, d⟩ := kd
      simp only [_check_outputs_to_marshal]
      cases hstep : getStepByKey plan k with
      | none =>
        intro e he
        have h1 : (some (DagsterError.executionStepNotFound k) : Option DagsterError) =
            some e := he
        injection h1 with h1
        left
        exact ⟨k, h1.symm, (getStepByKey_none_iff plan k).mp hstep, by simp⟩
      | some step =>
        dsimp only
        cases hchk : checkOutputsForStep step d with
        | some e0 =>
          dsimp only
          intro e he
          have h1 : (some e0 : Option DagsterError) = some e := he
          injection h1 with h1
          obtain ⟨o, hmem, hcont, heq⟩ := checkOutputsForStep_some step d e0 hchk
          right
          refine ⟨o.output, step.key, by rw [← h1, heq], step,
            List.mem_of_find?_eq_some hstep, rfl, ?_⟩
          intro hin
          rw [(contains_iff_mem step.outputs o.output).mpr hin] at hcont
          cases hcont
        | none =>
          dsimp only
          intro e he
          have he' : _check_outputs_to_marshal plan t = some e := he
          rcases ih e he' with h | h
          · left
            obtain ⟨k0, h1, h2, h3⟩ := h
            exact ⟨k0, h1, h2, by simp [h3]⟩
          · right
            exact h

/-- C2 witness: a request naming an input the step does not declare fails
with `DagsterUnmarshalInputNotFoundError`, after the context opened, with
the engine never invoked. -/
theorem externalized_plan_validation_witness :
    execute_externalized_plan
        [{ key := "a.transform", inputs := ["num"], outputs := ["result"] }]
        ["a.transform"] [("a.transform", [("bogus", "path")])] []
        (([], []) : List Event × List (StepResult Nat)) =
      ([Event.contextOpened], .error (.unmarshalInputNotFound "bogus" "a.transform")) :=
  (externalized_plan_validation
      [{ key := "a.transform", inputs := ["num"], outputs := ["result"] }]
      ["a.transform"] [("a.transform", [("bogus", "path")])] []
      (([], []) : List Event × List (StepResult Nat))).1
    (.unmarshalInputNotFound "bogus" "a.transform") rfl

/- ===================== C5 ===================== -/

/-- Every element of a successfully sequenced list arises from its source
element. -/
theorem mapOption_forward {α β : Type} (f : α → Option β) (l : List α) (ys : List β)
    (h : mapOption f l = some ys) : ∀ a ∈ l, ∃ y, f a = some y ∧ y ∈ ys := by
  induction l generalizing ys with
  | nil => intro a ha; cases ha
  | cons x t ih =>
    intro a ha
    rw [mapOption] at h
    cases hfx : f x with
    | none => simp [hfx] at h
    | some b =>
      cases hmt : mapOption f t with
      | none => simp [hfx, hmt] at h
      | some bs =>
        simp only [hfx, hmt] at h
        injection h with h
        subst h
        rcases List.mem_cons.mp ha with ha | ha
        · exact ⟨b, by rw [ha, hfx], List.mem_cons_self _ _⟩
        · obtain ⟨y, hy, hyin⟩ := ih bs hmt a ha
          exact ⟨y, hy, List.mem_cons_of_mem _ hyin⟩

/-- Every element of a successfully sequenced list has a source element. -/
theorem mapOption_backward {α β : Type} (f : α → Option β) (l : List α) (ys : List β)
    (h : mapOption f l = some ys) : ∀ y ∈ ys, ∃ a ∈ l, f a = some y := by
  induction l generalizing ys with
  | nil =>
    intro y hy
    rw [mapOption] at h
    injection h with h
    subst h
    cases hy
  | cons x t ih =>
    intro y hy
    rw [mapOption] at h
    cases hfx : f x with
    | none => simp [hfx] at h
    | some b =>
      cases hmt : mapOption f t with
      | none => simp [hfx, hmt] at h
      | some bs =>
        simp only [hfx, hmt] at h
        injection h with h
        subst h
        rcases List.mem_cons.mp hy with hy | hy
        · exact ⟨x, List.mem_cons_self _ _, by rw [hfx, hy]⟩
        · obtain ⟨a, ha, hfa⟩ := ih bs hmt y hy
          exact ⟨a, List.mem_cons_of_mem _ ha, hfa⟩

/-- Keyed `filterMap` lists have no binding for keys outside the source. -/
theorem lookupKey_filterMap_not_mem {K V : Type} [DecidableEq K] (f : K → Option V)
    (l : List K) (k : K) (hk : k ∉ l) :
    lookupKey (l.filterMap (fun i => (f i).map (fun v => (i, v)))) k = none := by
  induction l with
  | nil => rfl
  | cons a t ih =>
    have hka : k ≠ a := fun h => hk (h ▸ List.mem_cons_self _ _)
    have hkt : k ∉ t := fun h => hk (List.mem_cons_of_mem _ h)
    rw [List.filterMap_cons]
    cases hfa : f a with
    | none => exact ih hkt
    | some v =>
      simp only [Option.map_some']
      rw [lookupKey_cons]
      simp only [Ne.symm hka, if_false]
      exact ih hkt

/-- Lookup in a keyed `filterMap` list recovers the generating function on
members, provided keys are distinct. -/
theorem lookupKey_filterMap_keyed {K V : Type} [DecidableEq K] (f : K → Option V)
    (l : List K) (hnd : l.Nodup) (k : K) (hk : k ∈ l) :
    lookupKey (l.filterMap (fun i => (f i).map (fun v => (i, v)))) k = f k := by
  induction l with
  | nil => cases hk
  | cons a t ih =>
    have hat : a ∉ t := (List.nodup_cons.mp hnd).1
    have hndt : t.Nodup := (List.nodup_cons.mp hnd).2
    rw [List.filterMap_cons]
    rcases List.mem_cons.mp hk with hk | hk
    · subst hk
      cases hfa : f k with
      | none => simpa using lookupKey_filterMap_not_mem f t k hat
      | some v =>
        simp only [Option.map_some']
        rw [lookupKey_cons]
        simp
    · have hka : k ≠ a := fun h => hat (h ▸ hk)
      cases hfa : f a with
      | none => exact ih hndt hk
      | some v =>
        simp only [Option.map_some']
        rw [lookupKey_cons]
        simp only [Ne.symm hka, if_false]
        exact ih hndt hk

/-- A retained sub-pipeline dependency entry always points into the
subset. -/
theorem subDepEntry_some {Ctx : Type} (p : PipelineDefinition Ctx) (names : List String)
    (sName inp : String) (dd : DependencyDefinition)
    (h : subDepEntry p names sName inp = some dd) : dd.solid ∈ names := by
  unfold subDepEntry at h
  cases hdep : lookupKey p.depends { solidName := sName, inputName := inp } with
  | none => rw [hdep] at h; cases h
  | some oh =>
    rw [hdep] at h
    dsimp only at h
    by_cases hc : names.contains oh.solidName = true
    · rw [if_pos hc] at h
      injection h with h
      rw [← h]
      exact (contains_iff_mem names oh.solidName).mp hc
    · rw [if_neg hc] at h
      cases h

/-- The retained-edge entry, written with plain membership. -/
theorem subDepEntry_eq_match {Ctx : Type} (p : PipelineDefinition Ctx)
    (names : List String) (sName inp : String) :
    subDepEntry p names sName inp =
      (match lookupKey p.depends { solidName := sName, inputName := inp } with
       | some oh =>
         if oh.solidName ∈ names then
           some { solid := oh.solidName, output := oh.outputName }
         else none
       | none => none) := by
  unfold subDepEntry
  cases lookupKey p.depends { solidName := sName, inputName := inp } with
  | none => rfl
  | some oh =>
    dsimp only
    by_cases hc : oh.solidName ∈ names
    · rw [if_pos ((contains_iff_mem names oh.solidName).mpr hc), if_pos hc]
    · rw [if_neg (fun hcc => hc ((contains_iff_mem names oh.solidName).mp hcc)), if_neg hc]

/-- C5: `build_sub_pipeline(P, S)` reuses the original name and context
definitions; every dependency of the result points to a solid named in S;
and for each kept solid, an input edge is retained (with the producing
handle) iff the original dependency structure has an edge for that input
whose producing solid is named in S. -/
theorem build_sub_pipeline_spec {Ctx : Type} (p : PipelineDefinition Ctx)
    (names : List String) (q : SubPipeline Ctx)
    (hq : build_sub_pipeline p names = some q)
    (hnds : ∀ s ∈ p.solids, s.inputDefs.Nodup) :
    q.name = p.name ∧
    q.contextDefinitions = p.contextDefinitions ∧
    (∀ key es, q.deps key = some es → ∀ e ∈ es, e.2.solid ∈ names) ∧
    (∀ n ∈ names, ∀ s, solid_named p n = some s →
      ∃ es, q.deps (_dep_key_of s) = some es ∧
        ∀ inp ∈ s.inputDefs,
          lookupKey es inp =
            (match lookupKey p.depends { solidName := n, inputName := inp } with
             | some oh =>
               if oh.solidName ∈ names then
                 some { solid := oh.solidName, output := oh.outputName }
               else none
             | none => none)) := by
  obtain ⟨solids, hm, hqe⟩ := Option.map_eq_some'.mp hq
  subst hqe
  refine ⟨rfl, rfl, ?_, ?_⟩
  · intro key es hdeps e he
    obtain ⟨s, _hfind, hes⟩ := Option.map_eq_some'.mp hdeps
    subst hes
    obtain ⟨inp, _hinp, hentry⟩ := List.mem_filterMap.mp he
    obtain ⟨dd, hdd, hpair⟩ := Option.map_eq_some'.mp hentry
    have := subDepEntry_some p names s.name inp dd hdd
    rw [← hpair]
    exact this
  · intro n hn s hs
    obtain ⟨y, hy, hyin⟩ := mapOption_forward _ names solids hm n hn
    rw [hs] at hy
    injection hy with hy
    subst hy
    have hsname : s.name = n := by
      have := List.find?_some hs
      simpa using this
    have hsmem : s ∈ p.solids := List.mem_of_find?_eq_some hs
    have hfind : ∃ s2, solids.find? (fun x => _dep_key_of x = _dep_key_of s) = some s2 := by
      have : (solids.find? (fun x => _dep_key_of x = _dep_key_of s)).isSome := by
        rw [List.find?_isSome]
        exact ⟨s, hyin, by simp⟩
      exact Option.isSome_iff_exists.mp this
    obtain ⟨s2, hs2⟩ := hfind
    have hs2key : _dep_key_of s2 = _dep_key_of s := by
      have := List.find?_some hs2
      simpa using this
    have hs2eq : s2 = s := by
      obtain ⟨n2, hn2, hsn2⟩ := mapOption_backward _ names solids hm s2
        (List.mem_of_find?_eq_some hs2)
      have hs2name : s2.name = n2 := by
        have := List.find?_some hsn2
        simpa using this
      have hnn : n2 = n := by
        have : s2.name = s.name := congrArg SolidInstance.instName hs2key
        rw [hs2name, hsname] at this
        exact this
      rw [hnn] at hsn2
      rw [hs] at hsn2
      injection hsn2 with h
      exact h.symm
    refine ⟨subDepsForSolid p names s, ?_, ?_⟩
    · dsimp only
      rw [hs2, hs2eq]
      rfl
    · intro inp hinp
      have hlk : lookupKey (subDepsForSolid p names s) inp = subDepEntry p names s.name inp :=
        lookupKey_filterMap_keyed _ s.inputDefs (hnds s hsmem) inp hinp
      rw [hlk, hsname, subDepEntry_eq_match]

/-- C5 witness: in the concrete a-feeds-b-feeds-c pipeline restricted to
the subset b, c, the b-from-a edge is dropped and the c-from-b edge kept,
and the name and context definitions are reused. -/
theorem build_sub_pipeline_spec_witness :
    ∃ q, build_sub_pipeline demoPipeline ["b", "c"] = some q ∧
      q.name = demoPipeline.name ∧
      q.contextDefinitions = demoPipeline.contextDefinitions ∧
      (∀ key es, q.deps key = some es → ∀ e ∈ es, e.2.solid ∈ ["b", "c"]) := by
  obtain ⟨q, hq⟩ : ∃ q, build_sub_pipeline demoPipeline ["b", "c"] = some q := ⟨_, rfl⟩
  have h := build_sub_pipeline_spec demoPipeline ["b", "c"] q hq (by decide)
  exact ⟨q, hq, h.1, h.2.1, h.2.2.1⟩

/- ===================== C4 ===================== -/

/-- One grouping step: the group of the appended result grows at the end,
other groups are untouched, a new key is appended. -/
theorem lookup_update {V : Type} (t : List (String × List (StepResult V)))
    (r : StepResult V) (n : String) :
    lookupKey (t.map (fun g => if g.1 = r.solid.name then (g.1, g.2 ++ [r]) else g)) n =
      (if r.solid.name = n then
        (match lookupKey t n with
         | some rs => some (rs ++ [r])
         | none => none)
      else lookupKey t n) := by
  induction t with
  | nil =>
    by_cases h : r.solid.name = n <;> simp [lookupKey, h]
  | cons g t ih =>
    rw [List.map_cons]
    by_cases hg : g.1 = r.solid.name
    · rw [if_pos hg, lookupKey_cons, lookupKey_cons]
      by_cases hgn : g.1 = n
      · have hrn : r.solid.name = n := hg ▸ hgn
        simp only [hgn, if_true, hrn]
      · simp only [hgn, if_false, ih]
    · rw [if_neg hg, lookupKey_cons, lookupKey_cons]
      by_cases hgn : g.1 = n
      · have hrn : ¬(r.solid.name = n) := fun h => hg (hgn ▸ h.symm)
        simp only [hgn, if_true, hrn, if_false]
      · simp only [hgn, if_false, ih]

/-- A hit in the groups list for a present key. -/
theorem lookup_of_any {K V : Type} [DecidableEq K] (l : List (K × V)) (k : K)
    (h : l.any (fun g => g.1 = k) = true) : ∃ v, lookupKey l k = some v := by
  obtain ⟨g, hg, hgk⟩ := List.any_eq_true.mp h
  have : (l.find? (fun p => p.1 = k)).isSome := by
    rw [List.find?_isSome]
    exact ⟨g, hg, hgk⟩
  obtain ⟨p, hp⟩ := Option.isSome_iff_exists.mp this
  exact ⟨p.2, by simp [lookupKey, hp]⟩

/-- Appending one step result to the groups appends it to its solid group
(creating the group when absent) and leaves other groups untouched. -/
theorem lookup_addToGroups {V : Type} (groups : List (String × List (StepResult V)))
    (r : StepResult V) (n : String) :
    lookupKey (addToGroups groups r) n =
      (if r.solid.name = n then
        (match lookupKey groups n with
         | some rs => some (rs ++ [r])
         | none => some [r])
      else lookupKey groups n) := by
  unfold addToGroups
  cases hany : groups.any (fun g => g.1 = r.solid.name) with
  | true =>
    rw [if_pos rfl, lookup_update]
    by_cases hrn : r.solid.name = n
    · rw [if_pos hrn, if_pos hrn]
      obtain ⟨v, hv⟩ := lookup_of_any groups n (by rw [← hrn]; exact hany)
      rw [hv]
    · rw [if_neg hrn, if_neg hrn]
  | false =>
    rw [if_neg (by simp), lookupKey_append]
    by_cases hrn : r.solid.name = n
    · have hfind : groups.find? (fun p => p.1 = n) = none := by
        rw [List.find?_eq_none]
        intro p hp
        rw [List.any_eq_false] at hany
        have := hany p hp
        simp only [decide_eq_true_eq] at this ⊢
        rw [← hrn]
        exact this
      have hnone : lookupKey groups n = none := by simp [lookupKey, hfind]
      rw [hnone, if_pos hrn]
      simp [orElseO, lookupKey_cons, hrn]
    · rw [if_neg hrn]
      have hsing : lookupKey [(r.solid.name, [r])] n = none := by
        rw [lookupKey_cons]
        simp [hrn, lookupKey]
      rw [hsing, orElseO_none_right]

/-- The grouping fold, fully characterised: starting from `acc`, each key
holds its old binding extended by the stream results of that solid, in
arrival order. -/
theorem foldl_addToGroups_lookup {V : Type} (stream : List (StepResult V)) (n : String) :
    ∀ acc, lookupKey (stream.foldl addToGroups acc) n =
      (match lookupKey acc n with
       | some rs => some (rs ++ stream.filter (fun r => r.solid.name = n))
       | none =>
         if stream.any (fun r => r.solid.name = n) then
           some (stream.filter (fun r => r.solid.name = n))
         else none) := by
  induction stream with
  | nil =>
    intro acc
    cases hlk : lookupKey acc n <;> simp [hlk]
  | cons r t ih =>
    intro acc
    rw [List.foldl_cons, ih (addToGroups acc r), lookup_addToGroups]
    by_cases hrn : r.solid.name = n
    · rw [if_pos hrn]
      cases hlk : lookupKey acc n with
      | none => simp [List.filter_cons, List.any_cons, hrn]
      | some rs => simp [List.filter_cons, List.any_cons, hrn, List.append_assoc]
    · rw [if_neg hrn]
      cases hlk : lookupKey acc n with
      | none => simp [hlk, List.filter_cons, List.any_cons, hrn]
      | some rs => simp [hlk, List.filter_cons, List.any_cons, hrn]

/-- The grouping of `_process_step_results`: the group of a solid name is
exactly the subsequence of the stream with that solid, in arrival order. -/
theorem lookup_groups {V : Type} (stream : List (StepResult V)) (n : String) :
    lookupKey (step_results_by_solid_name stream) n =
      (if stream.any (fun r => r.solid.name = n) then
        some (stream.filter (fun r => r.solid.name = n))
      else none) := by
  have h := foldl_addToGroups_lookup stream n []
  rw [step_results_by_solid_name]
  rw [h]
  rfl

/-- Guarded `filterMap` is map-after-filter. -/
theorem filterMap_if_eq_map_filter {α β : Type} (p : α → Bool) (g : α → β) (l : List α) :
    l.filterMap (fun a => if p a then some (g a) else none) = (l.filter p).map g := by
  induction l with
  | nil => rfl
  | cons a t ih =>
    by_cases h : p a = true
    · simp [List.filterMap_cons, List.filter_cons, h, ih]
    · simp [List.filterMap_cons, List.filter_cons, h, ih]

/-- `filterMap` respects pointwise equal functions. -/
theorem filterMap_congr_fn {α β : Type} (l : List α) (f g : α → Option β)
    (h : ∀ a ∈ l, f a = g a) : l.filterMap f = l.filterMap g := by
  induction l with
  | nil => rfl
  | cons a t ih =>
    rw [List.filterMap_cons, List.filterMap_cons, h a (by simp),
      ih (fun x hx => h x (by simp [hx]))]

/-- `map` respects pointwise equal functions. -/
theorem map_congr_fn {α β : Type} (l : List α) (f g : α → β)
    (h : ∀ a ∈ l, f a = g a) : l.map f = l.map g := by
  induction l with
  | nil => rfl
  | cons a t ih =>
    rw [List.map_cons, List.map_cons, h a (by simp),
      ih (fun x hx => h x (by simp [hx]))]

/-- The aggregation equals: for each topologically ordered solid with
results, `from_results` of its arrival-ordered group. -/
theorem process_eq_map {V : Type} (topoOrder : List String)
    (stream : List (StepResult V)) :
    _process_step_results topoOrder stream =
      (topoOrder.filter (fun n => stream.any (fun r => r.solid.name = n))).map
        (fun n => SolidExecutionResult.from_results
          (stream.filter (fun r => r.solid.name = n))) := by
  unfold _process_step_results
  rw [filterMap_congr_fn _ _
    (fun n => if stream.any (fun r => r.solid.name = n) then
      some (SolidExecutionResult.from_results
        (stream.filter (fun r => r.solid.name = n)))
    else none)]
  · exact filterMap_if_eq_map_filter _ _ _
  · intro n _
    rw [lookup_groups]
    by_cases h : stream.any (fun r => r.solid.name = n) = true
    · rw [if_pos h, if_pos h]
      rfl
    · rw [if_neg h, if_neg h]
      rfl

/-- On a nonempty same-solid group, `from_results` succeeds and returns the
kind partition with the head solid. -/
theorem from_results_group {V : Type} (g : List (StepResult V)) (r : StepResult V)
    (rest : List (StepResult V)) (hg : g = r :: rest)
    (hsame : ∀ x ∈ g, x.solid = r.solid) :
    SolidExecutionResult.from_results g = .ok (groupResult g) := by
  subst hg
  have hall : (r :: rest).all (fun x => x.solid = r.solid) = true := by
    rw [List.all_eq_true]
    intro x hx
    exact decide_eq_true (hsame x hx)
  simp [SolidExecutionResult.from_results, groupResult, hall]

/-- The three kind partitions of a list, concatenated, are a permutation of
the list. -/
theorem kind_partition_perm {V : Type} (l : List (StepResult V)) :
    (l.filter (fun x => x.kind = StepKind.inputExpectation) ++
     l.filter (fun x => x.kind = StepKind.outputExpectation) ++
     l.filter (fun x => x.kind = StepKind.transform)).Perm l := by
  induction l with
  | nil => exact List.Perm.refl _
  | cons r t ih =>
    rw [List.filter_cons, List.filter_cons, List.filter_cons]
    cases hk : r.kind with
    | inputExpectation =>
      rw [if_pos (by decide), if_neg (by decide), if_neg (by decide),
        List.cons_append, List.cons_append]
      exact ih.cons r
    | outputExpectation =>
      rw [if_neg (by decide), if_pos (by decide), if_neg (by decide)]
      refine List.Perm.trans ?_ (ih.cons r)
      have h1 : (t.filter (fun x => x.kind = StepKind.inputExpectation) ++
          (r :: t.filter (fun x => x.kind = StepKind.outputExpectation)) ++
          t.filter (fun x => x.kind = StepKind.transform)) =
          t.filter (fun x => x.kind = StepKind.inputExpectation) ++
          r :: (t.filter (fun x => x.kind = StepKind.outputExpectation) ++
          t.filter (fun x => x.kind = StepKind.transform)) := by
        rw [List.append_assoc, List.cons_append]
      rw [h1, List.append_assoc]
      exact List.perm_middle
    | transform =>
      rw [if_neg (by decide), if_neg (by decide), if_pos (by decide)]
      refine List.Perm.trans ?_ (ih.cons r)
      exact List.perm_middle

/-- Splitting a covered stream along a duplicate-free name list is a
permutation of the stream. -/
theorem join_filter_groups_perm {V : Type} (names : List String) :
    ∀ stream : List (StepResult V), names.Nodup →
      (∀ r ∈ stream, r.solid.name ∈ names) →
      ((names.map (fun n => stream.filter (fun r => r.solid.name = n))).flatten).Perm stream := by
  induction names with
  | nil =>
    intro stream _ hcov
    cases stream with
    | nil => exact List.Perm.refl _
    | cons r t => exact absurd (hcov r (by simp)) (by simp)
  | cons n ns ih =>
    intro stream hnd hcov
    rw [List.map_cons, List.flatten_cons]
    have hsplit := List.filter_append_perm (fun r => r.solid.name = n) stream
    refine List.Perm.trans ?_ hsplit
    apply List.Perm.append_left
    have hmapeq : ns.map (fun m => stream.filter (fun r => r.solid.name = m)) =
        ns.map (fun m =>
          (stream.filter (fun x => !(decide (x.solid.name = n)))).filter
            (fun r => r.solid.name = m)) := by
      apply map_congr_fn
      intro m hm
      have hmn : m ≠ n := fun h => (List.nodup_cons.mp hnd).1 (h ▸ hm)
      rw [List.filter_filter]
      apply List.filter_congr
      intro x _
      by_cases hxm : x.solid.name = m
      · simp [hxm, hmn]
      · simp [hxm]
    rw [hmapeq]
    refine ih _ (List.nodup_cons.mp hnd).2 ?_
    intro r hr
    have hrs : r ∈ stream := List.mem_of_mem_filter hr
    rcases List.mem_cons.mp (hcov r hrs) with h | h
    · exfalso
      have := List.of_mem_filter hr
      simp [h] at this
    · exact h

/-- Boolean `any` is invariant under permutation. -/
theorem perm_any_eq {α : Type} (p : α → Bool) {l1 l2 : List α} (h : l1.Perm l2) :
    l1.any p = l2.any p := by
  cases hb : l2.any p with
  | false =>
    rw [List.any_eq_false] at hb ⊢
    intro x hx
    exact hb x (h.mem_iff.mp hx)
  | true =>
    rw [List.any_eq_true] at hb ⊢
    obtain ⟨x, hx, hpx⟩ := hb
    exact ⟨x, h.mem_iff.mpr hx, hpx⟩

/-- Joining pointwise-permuted mapped lists preserves permutation. -/
theorem join_map_perm {α β : Type} (l : List α) (f g : α → List β)
    (h : ∀ a ∈ l, (f a).Perm (g a)) : ((l.map f).flatten).Perm ((l.map g).flatten) := by
  induction l with
  | nil => exact List.Perm.refl _
  | cons a t ih =>
    rw [List.map_cons, List.flatten_cons, List.map_cons, List.flatten_cons]
    exact (h a (by simp)).append (ih (fun x hx => h x (by simp [hx])))

/-- Composition of maps, with the composite written as a lambda. -/
theorem map_map_fn {A B C : Type} (l : List A) (f : A → B) (g : B → C) :
    (l.map f).map g = l.map (fun a => g (f a)) := by
  induction l with
  | nil => rfl
  | cons a t ih => rw [List.map_cons, List.map_cons, List.map_cons, ih]

/-- C4: the aggregation, under the pipeline invariants (a name determines
its solid, every stream solid is a pipeline solid, the topological order
has no duplicates), attributes every step result to exactly one emitted
`SolidExecutionResult` — the one of its solid, with the kind partition
preserved and nothing lost or duplicated (the contained results are a
permutation of the stream) — and emits the results in the topological
solid order, which depends only on which solids occur in the stream, not
on arrival order. -/
theorem process_step_results_spec {V : Type} (topoOrder : List String)
    (stream : List (StepResult V))
    (h0 : ∀ r1 ∈ stream, ∀ r2 ∈ stream, r1.solid.name = r2.solid.name → r1.solid = r2.solid)
    (h1 : ∀ r ∈ stream, r.solid.name ∈ topoOrder)
    (h2 : topoOrder.Nodup) :
    ∃ sers : List (SolidExecutionResult V),
      _process_step_results topoOrder stream = sers.map Except.ok ∧
      sers.map (fun ser => ser.solid.name) =
        topoOrder.filter (fun n => stream.any (fun r => r.solid.name = n)) ∧
      (sers.map (fun ser => ser.solid.name)).Nodup ∧
      (∀ ser ∈ sers,
        ser.inputExpectations =
          (stream.filter (fun r => r.solid.name = ser.solid.name)).filter
            (fun x => x.kind = StepKind.inputExpectation) ∧
        ser.outputExpectations =
          (stream.filter (fun r => r.solid.name = ser.solid.name)).filter
            (fun x => x.kind = StepKind.outputExpectation) ∧
        ser.transforms =
          (stream.filter (fun r => r.solid.name = ser.solid.name)).filter
            (fun x => x.kind = StepKind.transform)) ∧
      ((sers.map (fun ser => ser.chained)).flatten).Perm stream ∧
      (∀ stream', stream.Perm stream' →
        topoOrder.filter (fun n => stream'.any (fun r => r.solid.name = n)) =
          topoOrder.filter (fun n => stream.any (fun r => r.solid.name = n))) := by
  have hgrp : ∀ n, stream.any (fun r => r.solid.name = n) = true →
      SolidExecutionResult.from_results (stream.filter (fun r => r.solid.name = n)) =
        .ok (groupResult (stream.filter (fun r => r.solid.name = n))) ∧
      (groupResult (stream.filter (fun r => r.solid.name = n))).solid.name = n ∧
      (groupResult (stream.filter (fun r => r.solid.name = n))).inputExpectations =
        (stream.filter (fun r => r.solid.name = n)).filter
          (fun x => x.kind = StepKind.inputExpectation) ∧
      (groupResult (stream.filter (fun r => r.solid.name = n))).outputExpectations =
        (stream.filter (fun r => r.solid.name = n)).filter
          (fun x => x.kind = StepKind.outputExpectation) ∧
      (groupResult (stream.filter (fun r => r.solid.name = n))).transforms =
        (stream.filter (fun r => r.solid.name = n)).filter
          (fun x => x.kind = StepKind.transform) ∧
      ((groupResult (stream.filter (fun r => r.solid.name = n))).chained).Perm
        (stream.filter (fun r => r.solid.name = n)) := by
    intro n hany
    obtain ⟨r0, hr0, hr0n⟩ := List.any_eq_true.mp hany
    have hr0mem : r0 ∈ stream.filter (fun r => r.solid.name = n) :=
      List.mem_filter.mpr ⟨hr0, hr0n⟩
    cases hgr : stream.filter (fun r => r.solid.name = n) with
    | nil => rw [hgr] at hr0mem; cases hr0mem
    | cons r rest =>
      have hrmem : r ∈ stream.filter (fun x => x.solid.name = n) := by
        rw [hgr]; exact List.mem_cons_self _ _
      have hrs : r ∈ stream := (List.mem_filter.mp hrmem).1
      have hrn : r.solid.name = n := of_decide_eq_true (List.mem_filter.mp hrmem).2
      have hsame : ∀ x ∈ stream.filter (fun y => y.solid.name = n), x.solid = r.solid := by
        intro x hx
        have hxs : x ∈ stream := (List.mem_filter.mp hx).1
        have hxn : x.solid.name = n := of_decide_eq_true (List.mem_filter.mp hx).2
        exact h0 x hxs r hrs (by rw [hxn, hrn])
      rw [hgr] at hsame
      refine ⟨from_results_group _ r rest rfl hsame, ?_, ?_, ?_, ?_, ?_⟩
      · exact hrn
      · rfl
      · rfl
      · rfl
      · exact kind_partition_perm _
  have hnamesnd : (topoOrder.filter
      (fun n => stream.any (fun r => r.solid.name = n))).Nodup :=
    List.Nodup.filter _ h2
  have hcov : ∀ r ∈ stream, r.solid.name ∈
      topoOrder.filter (fun n => stream.any (fun x => x.solid.name = n)) := by
    intro r hr
    exact List.mem_filter.mpr ⟨h1 r hr, List.any_eq_true.mpr ⟨r, hr, by simp⟩⟩
  have hanyof : ∀ n ∈ topoOrder.filter
      (fun m => stream.any (fun r => r.solid.name = m)),
      stream.any (fun r => r.solid.name = n) = true := by
    intro n hn
    exact (List.mem_filter.mp hn).2
  refine ⟨(topoOrder.filter (fun n => stream.any (fun r => r.solid.name = n))).map
      (fun n => groupResult (stream.filter (fun r => r.solid.name = n))), ?_, ?_, ?_, ?_, ?_, ?_⟩
  · rw [process_eq_map, map_map_fn]
    apply map_congr_fn
    intro n hn
    exact (hgrp n (hanyof n hn)).1
  · rw [map_map_fn]
    rw [map_congr_fn _ _ (fun n => n) (fun n hn => (hgrp n (hanyof n hn)).2.1)]
    simp
  · rw [map_map_fn]
    rw [map_congr_fn _ _ (fun n => n) (fun n hn => (hgrp n (hanyof n hn)).2.1)]
    simpa using hnamesnd
  · intro ser hser
    obtain ⟨n, hn, heq⟩ := List.mem_map.mp hser
    subst heq
    have h := hgrp n (hanyof n hn)
    rw [h.2.1]
    exact ⟨h.2.2.1, h.2.2.2.1, h.2.2.2.2.1⟩
  · refine List.Perm.trans ?_
      (join_filter_groups_perm
        (topoOrder.filter (fun n => stream.any (fun r => r.solid.name = n)))
        stream hnamesnd hcov)
    rw [map_map_fn]
    apply join_map_perm
    intro n hn
    exact (hgrp n (hanyof n hn)).2.2.2.2.2
  · intro stream' hperm
    apply List.filter_congr
    intro n _
    exact (perm_any_eq _ hperm).symm

/-- C4 witness: a two-solid stream arriving in anti-topological order is
still emitted in topological order, with each solid aggregated once. -/
theorem process_step_results_spec_witness :
    ∃ sers : List (SolidExecutionResult Nat),
      _process_step_results ["a", "b"] demoStream = sers.map Except.ok ∧
      sers.map (fun ser => ser.solid.name) =
        (["a", "b"] : List String).filter
          (fun n => demoStream.any (fun r => r.solid.name = n)) := by
  obtain ⟨sers, ha, hb, -⟩ :=
    process_step_results_spec ["a", "b"] demoStream (by decide) (by decide) (by decide)
  exact ⟨sers, ha, hb⟩

end DagsterExec
